import Mathlib

/-!
Shallow embedding of the name/fortune generation engine of `src/app.py`
(repository naeilum).

Embedding conventions:
* Python dicts holding the reference tables are embedded as association
  lists (`List (key × value)`); `dict.get` becomes `dictGet`/`dictGetD`.
* `random.choice(l)` becomes `pyChoice l i` where `i` is an externally
  supplied draw: the element at index `i % l.length`, uniform when `i` is
  uniform; `none` models the `IndexError` raised on an empty list.
* `random.uniform(0, total)` becomes an externally supplied rational `r`.
* `random.sample(tags, min 2 (len tags))` becomes `pySample`, two successive
  uniform picks without replacement.
* A stream `g : Nat → Nat` supplies the integer draws; a counter `k` is
  threaded through so that each call consumes its own draws.
* Fallible Python code (raising `IndexError`/`TypeError`) lands in `Option`:
  `none` models an exception propagating out of the function.
-/

/-- `random.choice(l)` with draw `i`: the element `l[i % len l]`; `none`
models the `IndexError` on an empty list. -/
def pyChoice {α : Type} (l : List α) (i : Nat) : Option α :=
  if h : l.length = 0 then none
  else some (l.get ⟨i % l.length, Nat.mod_lt i (Nat.pos_of_ne_zero h)⟩)

/-- Python `d.get(k)` on an association-list embedding of a dict. -/
def dictGet {κ α : Type} [BEq κ] (d : List (κ × α)) (k : κ) : Option α :=
  (d.find? (fun p => p.1 == k)).map Prod.snd

/-- Python `d.get(k, dflt)`. -/
def dictGetD {κ α : Type} [BEq κ] (d : List (κ × α)) (k : κ) (dflt : α) : α :=
  (dictGet d k).getD dflt

/-- `random.sample(l, min 2 (len l))` (src/app.py line 155): an empty list
gives the empty sample, a singleton gives itself, and otherwise two distinct
positions are drawn uniformly without replacement. -/
def pySample (l : List String) (g : Nat → Nat) (k : Nat) : List String × Nat :=
  if l.length = 0 then ([], k)
  else if l.length = 1 then (l, k + 1)
  else
    let i := g k % l.length
    let rest := l.eraseIdx i
    ([l.getD i "", rest.getD (g (k + 1) % rest.length) ""], k + 2)

/-- Python `str.upper()`, character by character (the inputs the code
compares against, `"SMITH"`/`"WILSON"` and initial letters, are ASCII). -/
def pyUpper (s : String) : String :=
  String.mk (s.data.map Char.toUpper)

/-- One entry of `SURNAMES_DATA`'s lists: `{korean, hanja, weight}` where the
`weight` key may be absent (the code reads it with `s.get("weight", 1)`). -/
structure SurnameEntry where
  korean : String
  hanja : String
  weight : Option ℚ
  deriving DecidableEq

/-- `SURNAMES_DATA`: initial letter (or `"DEFAULT"`) to list of entries. -/
abbrev SurnameTable := List (String × List SurnameEntry)

/-- One entry of `SYLLABLES_DATA`; `common` carries the JSON value that the
code reads with `s.get('common', 0)` and compares against `1`. -/
structure SyllableEntry where
  syllable : String
  hanja : String
  meaning : String
  tag : String
  common : Nat
  deriving DecidableEq

/-- The dict `syllables_by_tag` built in `generate_korean_names`. -/
abbrev ByTag := List (String × List SyllableEntry)

/-- `FORTUNES_DATA`: tag to list of message strings. -/
abbrev FortuneTable := List (String × List String)

/-- The effective weight `s.get("weight", 1)` (src/app.py line 98). -/
def effW (s : SurnameEntry) : ℚ :=
  s.weight.getD 1

/-- The cumulative-weight walk of src/app.py lines 102-108: return the first
entry whose running cumulative weight is ≥ the draw `r`; when the list is
exhausted the function falls through to `fb`. -/
def walkCumulative (fb : Option SurnameEntry) (r : ℚ) :
    List SurnameEntry → ℚ → Option SurnameEntry
  | [], _ => fb
  | s :: rest, cum =>
    let c := cum + effW s
    if r ≤ c then some s else walkCumulative fb r rest c

/-- The weighted random selection of src/app.py lines 97-108: walk the
cumulative weights against the uniform draw `r`; the fall-through
`return surname_options[0]` becomes the fallback `options.get? 0`
(`none` models the `IndexError` on an empty list). -/
def weightedSelect (options : List SurnameEntry) (r : ℚ) : Option SurnameEntry :=
  walkCumulative (options.get? 0) r options 0

/-- The hard-coded fallback list `[{"korean": "이", "hanja": "李"}]` of
src/app.py line 87. -/
def defaultSurnameList : List SurnameEntry :=
  [⟨"이", "李", none⟩]

/-- `get_korean_surname` (src/app.py lines 84-108).  `i` is the draw for the
`random.choice` of the empty-name branch, `r` the `random.uniform` draw of
the weighted branch.  A `none` result models an uncaught exception
(`IndexError` on an empty candidate list, or the `TypeError` of iterating
`None` when both the initial and `"DEFAULT"` are absent). -/
def get_korean_surname (tbl : SurnameTable) (last_name : String) (i : Nat) (r : ℚ) :
    Option SurnameEntry :=
  match last_name.data with
  | [] => pyChoice (dictGetD tbl "DEFAULT" defaultSurnameList) i
  | c :: _ =>
    if pyUpper last_name = "SMITH" then some ⟨"송", "宋", none⟩
    else
      match (dictGet tbl (String.mk [c.toUpper])).orElse (fun _ => dictGet tbl "DEFAULT") with
      | none => none
      | some options => weightedSelect options r

/-- The `romanization_map` literal of src/app.py lines 200-210. -/
def romanization_map : List (String × String) :=
  [("송", "Song"), ("이", "Lee"), ("김", "Kim"), ("박", "Park"),
   ("최", "Choi"), ("정", "Jung"), ("한", "Han"), ("서", "Seo"),
   ("강", "Kang"), ("조", "Cho"), ("윤", "Yoon"), ("장", "Jang"),
   ("임", "Lim"), ("홍", "Hong"), ("신", "Shin"), ("원", "Won"),
   ("백", "Baek"), ("문", "Moon"), ("민", "Min"), ("양", "Yang"),
   ("유", "Yoo"), ("남", "Nam"), ("노", "Noh"), ("고", "Ko"),
   ("구", "Koo"), ("류", "Ryu"), ("라", "Ra"), ("안", "Ahn"),
   ("오", "Oh"), ("태", "Tae"), ("도", "Do"), ("천", "Cheon"),
   ("배", "Bae"), ("변", "Byun"), ("황", "Hwang"), ("전", "Jeon")]

/-- The `given_romanization` literal of src/app.py lines 213-223, keyed by the
single character the code iterates over. -/
def given_romanization : List (Char × String) :=
  [('월', "Wil"), ('선', "Seon"), ('명', "Myung"), ('영', "Young"),
   ('지', "Ji"), ('현', "Hyun"), ('용', "Yong"), ('준', "Jun"),
   ('윤', "Yoon"), ('하', "Ha"), ('유', "Yu"), ('연', "Yeon"),
   ('우', "Woo"), ('은', "Eun"), ('민', "Min"), ('정', "Jung"),
   ('성', "Sung"), ('원', "Won"), ('석', "Seok"), ('서', "Seo"),
   ('휘', "Hwi"), ('혁', "Hyuk"), ('채', "Chae"), ('소', "So"),
   ('예', "Ye"), ('규', "Kyu"), ('도', "Do"), ('경', "Kyung"),
   ('강', "Kang"), ('건', "Gun"), ('호', "Ho"), ('림', "Rim"),
   ('해', "Hae"), ('솔', "Sol")]

/-- `romanize_korean_name` (src/app.py lines 198-230): table lookups with
identity passthrough, result `"{Surname} {Given-Parts-Hyphenated}"`. -/
def romanize_korean_name (surname given_name : String) : String :=
  let surname_roman := (dictGet romanization_map surname).getD surname
  let given_parts :=
    given_name.data.map (fun c => (dictGet given_romanization c).getD (String.mk [c]))
  surname_roman ++ " " ++ String.intercalate "-" given_parts

/-- The `meanings` literal of src/app.py lines 234-244. -/
def surname_meanings : List (String × String) :=
  [("宋", "Pine tree - symbol of longevity and resilience"),
   ("李", "Plum tree - symbol of beauty and perseverance"),
   ("金", "Gold - symbol of value and nobility"),
   ("朴", "Simple wood - symbol of honesty and humility"),
   ("崔", "High mountain - symbol of greatness"),
   ("鄭", "Upright - symbol of righteousness"),
   ("韓", "Great nation - symbol of leadership"),
   ("徐", "Slow and steady - symbol of patience"),
   ("姜", "Ginger - symbol of strength and vitality")]

/-- `get_surname_meaning` (src/app.py lines 232-245). -/
def get_surname_meaning (hanja : String) : String :=
  (dictGet surname_meanings hanja).getD "Noble family lineage"

/-- `generate_name_summary` (src/app.py lines 247-252). -/
def generate_name_summary (syllables : List SyllableEntry) : String :=
  match syllables.map (fun s => s.meaning) with
  | [m1, m2] => m1 ++ "하고 " ++ m2 ++ "한 사람"
  | _ => "품격 있고 아름다운 이름"

/-- The `family_name` sub-dict of a candidate. -/
structure FamilyName where
  korean : String
  hanja : String
  meaning : String
  deriving DecidableEq

/-- One `given_name` element of a candidate. -/
structure GivenPart where
  syllable : String
  hanja : String
  meaning : String
  deriving DecidableEq

/-- One candidate dict produced by `generate_korean_names`. -/
structure Candidate where
  name_kr : String
  name_en : String
  hanja : List String
  family_name : FamilyName
  given_name : List GivenPart
  summary : String
  deriving DecidableEq

/-- The hard-coded Wilson/Smith candidate of src/app.py lines 124-138. -/
def pinnedCandidate (surname : SurnameEntry) : Candidate :=
  { name_kr := "송월선"
    name_en := "Song Wil-Seon"
    hanja := [surname.hanja, "蔚", "宣"]
    family_name :=
      ⟨surname.korean, surname.hanja, "Pine tree - symbol of longevity and resilience"⟩
    given_name :=
      [⟨"월", "蔚", "무성하고 아름다운"⟩, ⟨"선", "宣", "베풀고 선포하는"⟩]
    summary := "무성한 아름다움을 널리 베푸는 사람" }

/-- The step of src/app.py lines 144-148 inserting one syllable into
`syllables_by_tag` (append to the tag's list, creating it if absent). -/
def groupInsert (acc : ByTag) (s : SyllableEntry) : ByTag :=
  if (acc.find? (fun p => p.1 == s.tag)).isSome then
    acc.map (fun p => if p.1 == s.tag then (p.1, p.2 ++ [s]) else p)
  else acc ++ [(s.tag, [s])]

/-- The `syllables_by_tag` dict built in src/app.py lines 143-148. -/
def groupByTag (data : List SyllableEntry) : ByTag :=
  data.foldl groupInsert []

/-- The per-tag pick of src/app.py lines 157-163: prefer the entries flagged
common, otherwise choose among all of the tag's entries. -/
def tagPick (opts : List SyllableEntry) (i : Nat) : Option SyllableEntry :=
  let commons := opts.filter (fun s => s.common == 1)
  if commons.isEmpty then pyChoice opts i else pyChoice commons i

/-- The `for tag in random.sample(...)` loop body of src/app.py lines
155-164: tags absent from the pool are skipped (and consume no draw); each
present tag contributes one picked syllable, in order. -/
def selectByTags (byTag : ByTag) (g : Nat → Nat) :
    List String → Nat → Option (List SyllableEntry × Nat)
  | [], k => some ([], k)
  | t :: ts, k =>
    match dictGet byTag t with
    | none => selectByTags byTag g ts k
    | some opts =>
      match tagPick opts (g k) with
      | none => none
      | some s =>
        match selectByTags byTag g ts (k + 1) with
        | none => none
        | some (rest, kk) => some (s :: rest, kk)

/-- The `while len(selected_syllables) < 2` loop of src/app.py lines 167-169,
unrolled on the number of missing entries: each iteration draws a uniformly
random tag from the pool's key set and a uniformly random entry of that tag's
list, appending exactly one entry. -/
def fillLoop (byTag : ByTag) (g : Nat → Nat) :
    Nat → List SyllableEntry → Nat → Option (List SyllableEntry × Nat)
  | 0, sel, k => some (sel, k)
  | need + 1, sel, k =>
    (pyChoice (byTag.map Prod.fst) (g k)).bind (fun t =>
      (dictGet byTag t).bind (fun opts =>
        (pyChoice opts (g (k + 1))).bind (fun e =>
          fillLoop byTag g need (sel ++ [e]) (k + 2))))

/-- The while loop of src/app.py lines 167-169: runs until 2 syllables are
collected; one entry is appended per iteration, so exactly
`2 - sel.length` iterations run. -/
def whileFill (byTag : ByTag) (g : Nat → Nat) (sel : List SyllableEntry) (k : Nat) :
    Option (List SyllableEntry × Nat) :=
  fillLoop byTag g (2 - sel.length) sel k

/-- The whole syllable-selection step of one loop iteration of
`generate_korean_names` (src/app.py lines 152-169): sample up to 2 tags,
pick per tag, then fill to 2 entries. -/
def syllableSelection (byTag : ByTag) (tags : List String) (g : Nat → Nat) (k : Nat) :
    Option (List SyllableEntry × Nat) :=
  (selectByTags byTag g (pySample tags g k).1 (pySample tags g k).2).bind
    (fun p => whileFill byTag g p.1 p.2)

/-- The candidate construction of src/app.py lines 171-192 from the resolved
surname and the selected syllables (the code uses `selected_syllables[:2]`). -/
def makeCandidate (surname : SurnameEntry) (sel : List SyllableEntry) : Candidate :=
  let sel2 := sel.take 2
  let given_name_kr := String.join (sel2.map (fun s => s.syllable))
  let given_name_hanja := sel2.map (fun s => s.hanja)
  { name_kr := surname.korean ++ given_name_kr
    name_en := romanize_korean_name surname.korean given_name_kr
    hanja := surname.hanja :: given_name_hanja
    family_name := ⟨surname.korean, surname.hanja, get_surname_meaning surname.hanja⟩
    given_name := sel2.map (fun s => ⟨s.syllable, s.hanja, s.meaning⟩)
    summary := generate_name_summary sel2 }

/-- One iteration of the `for _ in range(3 - len(candidates))` loop body
(src/app.py lines 151-194). -/
def genOneCandidate (byTag : ByTag) (tags : List String) (surname : SurnameEntry)
    (g : Nat → Nat) (k : Nat) : Option (Candidate × Nat) :=
  (syllableSelection byTag tags g k).map (fun p => (makeCandidate surname p.1, p.2))

/-- The `for _ in range(n)` candidate loop of src/app.py line 151, appending
one candidate per iteration. -/
def genLoop (byTag : ByTag) (tags : List String) (surname : SurnameEntry)
    (g : Nat → Nat) : Nat → Nat → Option (List Candidate × Nat)
  | 0, k => some ([], k)
  | n + 1, k =>
    (genOneCandidate byTag tags surname g k).bind (fun ck =>
      (genLoop byTag tags surname g n ck.2).map (fun csk => (ck.1 :: csk.1, csk.2)))

/-- The `options` dict of `generate_korean_names`: the two keys the code
reads (`tags` and `gender`), each possibly absent. -/
structure Options where
  tags : Option (List String)
  gender : Option String

/-- `generate_korean_names` (src/app.py lines 110-196).  `surnames` and
`sylls` are the loaded `SURNAMES_DATA` and `SYLLABLES_DATA`; `g` supplies the
integer draws (the surname branch uses `g 0`, the candidate loop draws from
position 1 on) and `r` the single `random.uniform` draw. -/
def generate_korean_names (surnames : SurnameTable) (sylls : List SyllableEntry)
    (first_name last_name : String) (options : Options)
    (g : Nat → Nat) (r : ℚ) : Option (List Candidate) :=
  let tags := options.tags.getD ["밝음", "지혜"]
  let _gender := options.gender.getD "neutral"
  (get_korean_surname surnames last_name (g 0) r).bind (fun surname =>
    let candidates : List Candidate :=
      if pyUpper first_name = "WILSON" ∧ pyUpper last_name = "SMITH" then
        [pinnedCandidate surname]
      else []
    (genLoop (groupByTag sylls) tags surname g (3 - candidates.length) 1).map (fun p =>
      (candidates ++ p.1).take 3))

/-- The `cosmic_cookies` literal of src/app.py lines 259-265. -/
def cosmic_cookies : List String :=
  ["A squirrel is burying a nut for its future self. What small, wonderful thing can you do today that \x27Future You\x27 will thank you for?",
   "The universe is conspiring to bring you exactly what you need. Stay open to unexpected meetings.",
   "Your energy today is like a gentle breeze - soft but capable of moving mountains of doubt.",
   "Today\x27s plot twist: the thing you\x27ve been worrying about will resolve itself in the most unexpected way.",
   "The stars suggest you trust your first instinct today. Your intuition is particularly sharp."]

/-- The `lucky_snacks` literal of src/app.py lines 267-273. -/
def lucky_snacks : List String :=
  ["Anything with chocolate. Seriously.",
   "Something crunchy - it will spark creativity.",
   "A warm drink will bring clarity to your thoughts.",
   "Fresh fruit will energize your afternoon.",
   "Share a snack with someone - double the luck!"]

/-- The fortune dict returned by `generate_fortune`. -/
structure Fortune where
  date : String
  cosmic_cookie : String
  lucky_snack : String
  deeper_look : String
  deriving DecidableEq

/-- `generate_fortune` (src/app.py lines 254-288) on the supplied-date path
(the `date=None` default merely formats the current date, outside the pure
engine).  Draw order matches the source: tag, message, cookie, snack. -/
def generate_fortune (ftbl : FortuneTable) (tags : List String) (date : String)
    (g : Nat → Nat) : Option Fortune :=
  let available0 := tags.filter (fun t => (dictGet ftbl t).isSome)
  let available := if available0.isEmpty then ftbl.map Prod.fst else available0
  (pyChoice available (g 0)).bind (fun tag =>
    (dictGet ftbl tag).bind (fun msgs =>
      (pyChoice msgs (g 1)).bind (fun deeper =>
        (pyChoice cosmic_cookies (g 2)).bind (fun cc =>
          (pyChoice lucky_snacks (g 3)).map (fun ls =>
            ⟨date, cc, ls, deeper⟩)))))

/-- Modelled from the spec: the shipped fortune data file (data/fortunes.json)
is not under src, so its content is constrained only by the spec schema
(section 6: a mapping of tag strings to lists of message strings) and by the
spec's testable properties (section 8), which presuppose a loaded table that
is non-empty with non-empty message lists. -/
def FortuneTableWF (ftbl : FortuneTable) : Prop :=
  ftbl ≠ [] ∧ ∀ p ∈ ftbl, p.2 ≠ []

instance (ftbl : FortuneTable) : Decidable (FortuneTableWF ftbl) := by
  unfold FortuneTableWF
  infer_instance

/-! ### Basic lemmas about the random-primitive embeddings -/

lemma pyChoice_eq_get? {α : Type} (l : List α) (i : Nat) :
    pyChoice l i = l.get? (i % l.length) := by
  unfold pyChoice
  split
  · rename_i h
    rw [List.length_eq_zero.mp h]
    simp
  · rename_i h
    exact (List.get?_eq_get (Nat.mod_lt i (Nat.pos_of_ne_zero h))).symm

lemma pyChoice_mem {α : Type} {l : List α} {i : Nat} {a : α}
    (h : pyChoice l i = some a) : a ∈ l := by
  unfold pyChoice at h
  split at h
  · exact absurd h (by simp)
  · exact (Option.some.injEq _ _ ▸ h) ▸ List.get_mem _ _ _

lemma pyChoice_isSome {α : Type} {l : List α} (h : l ≠ []) (i : Nat) :
    ∃ a, pyChoice l i = some a ∧ a ∈ l := by
  unfold pyChoice
  split
  · rename_i h0
    exact absurd (List.length_eq_zero.mp h0) h
  · exact ⟨_, rfl, List.get_mem _ _ _⟩

lemma dictGet_mem {κ α : Type} [BEq κ] [LawfulBEq κ] {d : List (κ × α)} {k : κ} {v : α}
    (h : dictGet d k = some v) : (k, v) ∈ d := by
  unfold dictGet at h
  cases hf : d.find? (fun p => p.1 == k) with
  | none => rw [hf] at h; exact absurd h (by simp)
  | some p =>
    rw [hf] at h
    have hp : p.1 = k := by
      have := List.find?_some hf
      simpa using this
    have hm := List.mem_of_find?_eq_some hf
    have hv : p.2 = v := by simpa using h
    have : p = (k, v) := by
      cases p
      simp_all
    exact this ▸ hm

lemma dictGet_of_mem_keys {κ α : Type} [BEq κ] [LawfulBEq κ] {d : List (κ × α)} {k : κ}
    (h : k ∈ d.map Prod.fst) : ∃ v, dictGet d k = some v := by
  induction d with
  | nil => simp at h
  | cons p rest ih =>
    by_cases hk : p.1 = k
    · exact ⟨p.2, by simp [dictGet, List.find?_cons, hk]⟩
    · have hr : k ∈ rest.map Prod.fst := by
        simp only [List.map_cons, List.mem_cons] at h
        exact h.resolve_left (fun he => hk he.symm)
      obtain ⟨v, hv⟩ := ih hr
      refine ⟨v, ?_⟩
      have hb : (p.1 == k) = false := by simpa using hk
      simpa [dictGet, List.find?_cons, hb] using hv

lemma pySample_len_le (l : List String) (g : Nat → Nat) (k : Nat) :
    (pySample l g k).1.length ≤ 2 := by
  unfold pySample
  split
  · simp
  · split
    · rename_i h1
      simp [h1]
    · simp

/-! ### Invariants of the tag-indexed syllable pool -/

lemma groupInsert_vals {acc : ByTag} {s : SyllableEntry}
    (h : ∀ p ∈ acc, p.2 ≠ []) : ∀ p ∈ groupInsert acc s, p.2 ≠ [] := by
  intro p hp
  unfold groupInsert at hp
  split at hp
  · obtain ⟨q, hq, hqp⟩ := List.mem_map.mp hp
    by_cases ht : q.1 = s.tag
    · have : p = (q.1, q.2 ++ [s]) := by
        rw [← hqp]
        simp [ht]
      rw [this]
      simp
    · have hb : (q.1 == s.tag) = false := by simpa using ht
      have : p = q := by rw [← hqp]; simp [hb]
      exact this ▸ h q hq
  · rcases List.mem_append.mp hp with hq | hq
    · exact h p hq
    · simp at hq
      rw [hq]
      simp

lemma groupInsert_ne_nil (acc : ByTag) (s : SyllableEntry) : groupInsert acc s ≠ [] := by
  unfold groupInsert
  split
  · rename_i h
    intro hc
    rw [List.map_eq_nil_iff.mp hc] at h
    simp [List.find?] at h
  · simp

lemma foldl_groupInsert_vals (data : List SyllableEntry) :
    ∀ acc : ByTag, (∀ p ∈ acc, p.2 ≠ []) →
      ∀ p ∈ data.foldl groupInsert acc, p.2 ≠ [] := by
  induction data with
  | nil => intro acc h; simpa using h
  | cons s rest ih =>
    intro acc h
    exact ih (groupInsert acc s) (groupInsert_vals h)

lemma groupByTag_vals (data : List SyllableEntry) :
    ∀ p ∈ groupByTag data, p.2 ≠ [] :=
  foldl_groupInsert_vals data [] (by simp)

lemma foldl_groupInsert_ne_nil (data : List SyllableEntry) :
    ∀ acc : ByTag, acc ≠ [] → data.foldl groupInsert acc ≠ [] := by
  induction data with
  | nil => intro acc h; simpa using h
  | cons s rest ih =>
    intro acc _
    exact ih (groupInsert acc s) (groupInsert_ne_nil acc s)

lemma groupByTag_ne_nil {data : List SyllableEntry} (h : data ≠ []) :
    groupByTag data ≠ [] := by
  cases data with
  | nil => exact absurd rfl h
  | cons s rest =>
    exact foldl_groupInsert_ne_nil rest (groupInsert [] s) (groupInsert_ne_nil [] s)

/-! ### The while-fill loop always collects exactly the missing entries -/

lemma fillLoop_some_len (byTag : ByTag) (g : Nat → Nat) :
    ∀ need sel k out kk, fillLoop byTag g need sel k = some (out, kk) →
      out.length = sel.length + need := by
  intro need
  induction need with
  | zero =>
    intro sel k out kk h
    simp only [fillLoop, Option.some.injEq, Prod.mk.injEq] at h
    rw [← h.1]
    simp
  | succ n ih =>
    intro sel k out kk h
    simp only [fillLoop] at h
    cases h1 : pyChoice (byTag.map Prod.fst) (g k) with
    | none => rw [h1] at h; simp at h
    | some t =>
      rw [h1] at h
      simp only [Option.some_bind] at h
      cases h2 : dictGet byTag t with
      | none => rw [h2] at h; simp at h
      | some opts =>
        rw [h2] at h
        simp only [Option.some_bind] at h
        cases h3 : pyChoice opts (g (k + 1)) with
        | none => rw [h3] at h; simp at h
        | some e =>
          rw [h3] at h
          simp only [Option.some_bind] at h
          have := ih (sel ++ [e]) (k + 2) out kk h
          simp only [List.length_append, List.length_singleton] at this
          omega

lemma fillLoop_success (byTag : ByTag) (g : Nat → Nat)
    (hne : byTag ≠ []) (hvals : ∀ p ∈ byTag, p.2 ≠ []) :
    ∀ need sel k, ∃ out kk, fillLoop byTag g need sel k = some (out, kk) := by
  intro need
  induction need with
  | zero => intro sel k; exact ⟨sel, k, rfl⟩
  | succ n ih =>
    intro sel k
    have hkeys : byTag.map Prod.fst ≠ [] := by simpa using hne
    obtain ⟨t, h1, ht⟩ := pyChoice_isSome hkeys (g k)
    obtain ⟨opts, h2⟩ := dictGet_of_mem_keys ht
    have hopts : opts ≠ [] := hvals (t, opts) (dictGet_mem h2)
    obtain ⟨e, h3, _⟩ := pyChoice_isSome hopts (g (k + 1))
    obtain ⟨out, kk, h4⟩ := ih (sel ++ [e]) (k + 2)
    exact ⟨out, kk, by simp [fillLoop, h1, h2, h3, h4]⟩

/-! ### The per-tag selection succeeds on every present tag -/

lemma tagPick_isSome {opts : List SyllableEntry} (h : opts ≠ []) (i : Nat) :
    ∃ s, tagPick opts i = some s := by
  by_cases hc : (opts.filter (fun s => s.common == 1)).isEmpty
  · obtain ⟨a, ha, _⟩ := pyChoice_isSome h i
    exact ⟨a, by simp [tagPick, hc, ha]⟩
  · have hcom : opts.filter (fun s => s.common == 1) ≠ [] := by
      intro he
      rw [he] at hc
      exact hc rfl
    obtain ⟨a, ha, _⟩ := pyChoice_isSome hcom i
    exact ⟨a, by simp [tagPick, hc, ha]⟩

lemma selectByTags_success (byTag : ByTag) (g : Nat → Nat)
    (hvals : ∀ p ∈ byTag, p.2 ≠ []) :
    ∀ chosen k, ∃ sel kk, selectByTags byTag g chosen k = some (sel, kk) ∧
      sel.length ≤ chosen.length := by
  intro chosen
  induction chosen with
  | nil => intro k; exact ⟨[], k, rfl, by simp⟩
  | cons t ts ih =>
    intro k
    cases h2 : dictGet byTag t with
    | none =>
      obtain ⟨sel, kk, h, hlen⟩ := ih k
      refine ⟨sel, kk, by simp [selectByTags, h2, h], ?_⟩
      simp only [List.length_cons]
      omega
    | some opts =>
      have hopts : opts ≠ [] := hvals (t, opts) (dictGet_mem h2)
      obtain ⟨s, h3⟩ := tagPick_isSome hopts (g k)
      obtain ⟨sel, kk, h, hlen⟩ := ih (k + 1)
      refine ⟨s :: sel, kk, by simp [selectByTags, h2, h3, h], ?_⟩
      simp only [List.length_cons]
      omega

/-! ### The syllable-selection step returns exactly 2 entries -/

lemma syllableSelection_some_len {byTag : ByTag} {tags : List String} {g : Nat → Nat}
    {k : Nat} {sel : List SyllableEntry} {kk : Nat}
    (h : syllableSelection byTag tags g k = some (sel, kk)) : 2 ≤ sel.length := by
  unfold syllableSelection at h
  cases h1 : selectByTags byTag g (pySample tags g k).1 (pySample tags g k).2 with
  | none => rw [h1] at h; simp at h
  | some p =>
    rw [h1] at h
    simp only [Option.some_bind, whileFill] at h
    have := fillLoop_some_len byTag g (2 - p.1.length) p.1 p.2 sel kk h
    omega

lemma syllableSelection_success {byTag : ByTag} (hne : byTag ≠ [])
    (hvals : ∀ p ∈ byTag, p.2 ≠ []) (tags : List String) (g : Nat → Nat) (k : Nat) :
    ∃ sel kk, syllableSelection byTag tags g k = some (sel, kk) ∧ sel.length = 2 := by
  obtain ⟨sel1, k2, h1, hlen1⟩ :=
    selectByTags_success byTag g hvals (pySample tags g k).1 (pySample tags g k).2
  have hle2 : sel1.length ≤ 2 := le_trans hlen1 (pySample_len_le tags g k)
  obtain ⟨out, kk, h2⟩ := fillLoop_success byTag g hne hvals (2 - sel1.length) sel1 k2
  have hlen := fillLoop_some_len byTag g (2 - sel1.length) sel1 k2 out kk h2
  refine ⟨out, kk, ?_, by omega⟩
  simp [syllableSelection, h1, whileFill, h2]

/-! ### Shape of a constructed candidate -/

lemma makeCandidate_shape (surname : SurnameEntry) (sel : List SyllableEntry)
    (h : 2 ≤ sel.length) :
    (makeCandidate surname sel).given_name.length = 2 ∧
    (makeCandidate surname sel).hanja.length = 3 ∧
    (makeCandidate surname sel).hanja.head? =
      some (makeCandidate surname sel).family_name.hanja := by
  refine ⟨?_, ?_, rfl⟩
  · simp [makeCandidate]
    omega
  · simp [makeCandidate]
    omega

/-! ### The candidate loop produces one candidate per iteration -/

lemma genOneCandidate_some {byTag : ByTag} {tags : List String} {surname : SurnameEntry}
    {g : Nat → Nat} {k : Nat} {c : Candidate} {kk : Nat}
    (h : genOneCandidate byTag tags surname g k = some (c, kk)) :
    ∃ sel, 2 ≤ sel.length ∧ c = makeCandidate surname sel := by
  unfold genOneCandidate at h
  cases h1 : syllableSelection byTag tags g k with
  | none => rw [h1] at h; simp at h
  | some p =>
    rw [h1] at h
    obtain ⟨p1, p2⟩ := p
    simp only [Option.map_some', Option.some.injEq, Prod.mk.injEq] at h
    exact ⟨p1, syllableSelection_some_len h1, h.1.symm⟩

lemma genOneCandidate_success {byTag : ByTag} (hne : byTag ≠ [])
    (hvals : ∀ p ∈ byTag, p.2 ≠ []) (tags : List String) (surname : SurnameEntry)
    (g : Nat → Nat) (k : Nat) :
    ∃ c kk, genOneCandidate byTag tags surname g k = some (c, kk) := by
  obtain ⟨sel, kk, h, _⟩ := syllableSelection_success hne hvals tags g k
  exact ⟨makeCandidate surname sel, kk, by simp [genOneCandidate, h]⟩

lemma genLoop_some (byTag : ByTag) (tags : List String) (surname : SurnameEntry)
    (g : Nat → Nat) :
    ∀ n k cs kk, genLoop byTag tags surname g n k = some (cs, kk) →
      cs.length = n ∧ ∀ c ∈ cs, ∃ sel, 2 ≤ sel.length ∧ c = makeCandidate surname sel := by
  intro n
  induction n with
  | zero =>
    intro k cs kk h
    simp only [genLoop, Option.some.injEq, Prod.mk.injEq] at h
    rw [← h.1]
    exact ⟨rfl, by simp⟩
  | succ n ih =>
    intro k cs kk h
    simp only [genLoop] at h
    cases h1 : genOneCandidate byTag tags surname g k with
    | none => rw [h1] at h; simp at h
    | some ck =>
      rw [h1] at h
      simp only [Option.some_bind] at h
      cases h2 : genLoop byTag tags surname g n ck.2 with
      | none => rw [h2] at h; simp at h
      | some csk =>
        rw [h2] at h
        simp only [Option.map_some', Option.some.injEq] at h
        obtain ⟨hlen, hmem⟩ := ih ck.2 csk.1 csk.2 (by rw [h2])
        rw [Prod.mk.injEq] at h
        rw [← h.1]
        constructor
        · simp [hlen]
        · intro c hc
          rcases List.mem_cons.mp hc with hc | hc
          · obtain ⟨ck1, ck2⟩ := ck
            exact hc ▸ genOneCandidate_some h1
          · exact hmem c hc

lemma genLoop_success {byTag : ByTag} (hne : byTag ≠ [])
    (hvals : ∀ p ∈ byTag, p.2 ≠ []) (tags : List String) (surname : SurnameEntry)
    (g : Nat → Nat) :
    ∀ n k, ∃ cs kk, genLoop byTag tags surname g n k = some (cs, kk) := by
  intro n
  induction n with
  | zero => intro k; exact ⟨[], k, rfl⟩
  | succ n ih =>
    intro k
    obtain ⟨c, k1, h1⟩ := genOneCandidate_success hne hvals tags surname g k
    obtain ⟨cs, kk, h2⟩ := ih k1
    exact ⟨c :: cs, kk, by simp [genLoop, h1, h2]⟩

/-! ### Characterisation of the cumulative-weight walk -/

/-- Cumulative sum of the first `n` effective weights of the candidate list
(the running `cumulative` variable of src/app.py lines 102-104). -/
def cumW (options : List SurnameEntry) (n : Nat) : ℚ :=
  ((options.take n).map effW).sum

lemma cumW_succ_cons (s : SurnameEntry) (rest : List SurnameEntry) (n : Nat) :
    cumW (s :: rest) (n + 1) = effW s + cumW rest n := by
  simp [cumW]

lemma cumW_length (options : List SurnameEntry) :
    cumW options options.length = (options.map effW).sum := by
  simp [cumW]

lemma walkCumulative_first (fb : Option SurnameEntry) (r : ℚ) :
    ∀ (options : List SurnameEntry) (cum : ℚ) (i : Nat), i < options.length →
      r ≤ cum + cumW options (i + 1) →
      (∀ j, j < i → cum + cumW options (j + 1) < r) →
      walkCumulative fb r options cum = options.get? i := by
  intro options
  induction options with
  | nil => intro cum i hi; simp at hi
  | cons s rest ih =>
    intro cum i hi hle hmin
    cases i with
    | zero =>
      have hc : r ≤ cum + effW s := by
        rw [cumW_succ_cons] at hle
        simp only [cumW, List.take_zero, List.map_nil, List.sum_nil, add_zero] at hle
        linarith
      simp only [walkCumulative]
      rw [if_pos hc]
      rfl
    | succ i =>
      have h0 : cum + effW s < r := by
        have := hmin 0 (Nat.succ_pos i)
        rw [cumW_succ_cons] at this
        simp only [cumW, List.take_zero, List.map_nil, List.sum_nil, add_zero] at this
        linarith
      simp only [walkCumulative]
      rw [if_neg (by linarith)]
      have hle2 : r ≤ (cum + effW s) + cumW rest (i + 1) := by
        rw [cumW_succ_cons] at hle
        linarith
      have hmin2 : ∀ j, j < i → (cum + effW s) + cumW rest (j + 1) < r := by
        intro j hj
        have := hmin (j + 1) (Nat.succ_lt_succ hj)
        rw [cumW_succ_cons] at this
        linarith
      have := ih (cum + effW s) i (Nat.lt_of_succ_lt_succ hi) hle2 hmin2
      exact this

lemma walkCumulative_fall (fb : Option SurnameEntry) (r : ℚ) :
    ∀ (options : List SurnameEntry) (cum : ℚ),
      (∀ s ∈ options, 0 ≤ effW s) →
      cum + cumW options options.length < r →
      walkCumulative fb r options cum = fb := by
  intro options
  induction options with
  | nil => intro cum _ _; rfl
  | cons s rest ih =>
    intro cum hw hlt
    have hrest : 0 ≤ cumW rest rest.length := by
      rw [cumW_length]
      apply List.sum_nonneg
      intro x hx
      obtain ⟨e, he, hex⟩ := List.mem_map.mp hx
      exact hex ▸ hw e (List.mem_cons_of_mem s he)
    rw [List.length_cons, cumW_succ_cons] at hlt
    simp only [walkCumulative]
    rw [if_neg (by linarith)]
    exact ih (cum + effW s) (fun e he => hw e (List.mem_cons_of_mem s he)) (by linarith)

/-! ### Concrete demonstration data used by the witnesses -/

/-- A small surname table with only the `"DEFAULT"` key. -/
def demoSurnames : SurnameTable :=
  [("DEFAULT", [⟨"이", "李", none⟩])]

/-- A small syllable pool covering the two default tags. -/
def demoSylls : List SyllableEntry :=
  [⟨"지", "智", "지혜로운", "지혜", 1⟩, ⟨"밝", "明", "밝은", "밝음", 0⟩]

/-- One concrete run of the generator (empty last name, constant draws). -/
def demoRun : List Candidate :=
  (generate_korean_names demoSurnames demoSylls "Ann" "" ⟨none, none⟩ (fun _ => 0) 0).getD []

/-- A one-tag fortune table. -/
def demoFortunes : FortuneTable :=
  [("밝음", ["긍정의 기운이 가득한 하루입니다"])]

/-- A two-entry candidate list with default weights, for the fall-through case. -/
def ceKim : SurnameEntry := ⟨"김", "金", none⟩

/-- Second entry of the fall-through demonstration list. -/
def ceLee : SurnameEntry := ⟨"이", "李", none⟩

/-- A two-entry weighted list: weights 1 and 2. -/
def wsDemo : List SurnameEntry := [⟨"김", "金", some 1⟩, ⟨"이", "李", some 2⟩]

/-- A `DEFAULT` list with unequal weights 3 and 1, for the uniformity check. -/
def uTbl : SurnameTable := [("DEFAULT", [⟨"김", "金", some 3⟩, ⟨"이", "李", some 1⟩])]

/-! ### Shape of every candidate a successful run can contain -/

lemma pinnedCandidate_shape (surname : SurnameEntry) :
    (pinnedCandidate surname).given_name.length = 2 ∧
    (pinnedCandidate surname).hanja.length = 3 ∧
    (pinnedCandidate surname).hanja.head? =
      some (pinnedCandidate surname).family_name.hanja :=
  ⟨rfl, rfl, rfl⟩

/-! ### Claim theorems -/

/-- Claim C1: whenever `generate_korean_names` returns, the result is an
ordered list of exactly 3 candidates, each with a `given_name` list of
exactly 2 entries and a `hanja` list of exactly 3 entries whose first
element is the surname's hanja. -/
theorem generate_names_shape (surnames : SurnameTable) (sylls : List SyllableEntry)
    (first_name last_name : String) (options : Options) (g : Nat → Nat) (r : ℚ)
    (cs : List Candidate)
    (h : generate_korean_names surnames sylls first_name last_name options g r = some cs) :
    cs.length = 3 ∧ ∀ c ∈ cs, c.given_name.length = 2 ∧ c.hanja.length = 3 ∧
      c.hanja.head? = some c.family_name.hanja := by
  unfold generate_korean_names at h
  cases h1 : get_korean_surname surnames last_name (g 0) r with
  | none => rw [h1] at h; simp at h
  | some surname =>
    rw [h1] at h
    simp only [Option.some_bind] at h
    by_cases hcond : pyUpper first_name = "WILSON" ∧ pyUpper last_name = "SMITH"
    · rw [if_pos hcond] at h
      cases h2 : genLoop (groupByTag sylls) (options.tags.getD ["밝음", "지혜"]) surname g
          (3 - [pinnedCandidate surname].length) 1 with
      | none => rw [h2] at h; simp at h
      | some p =>
        rw [h2] at h
        simp only [Option.map_some', Option.some.injEq] at h
        obtain ⟨hlen, hmem⟩ :=
          genLoop_some (groupByTag sylls) (options.tags.getD ["밝음", "지혜"]) surname g
            (3 - [pinnedCandidate surname].length) 1 p.1 p.2 (by rw [h2])
        simp only [List.length_singleton] at hlen
        have hlist : ([pinnedCandidate surname] ++ p.1).length = 3 := by
          simp [hlen]
        rw [← h]
        constructor
        · rw [List.length_take, hlist]
          exact min_self 3
        · intro c hc
          have hc2 : c ∈ [pinnedCandidate surname] ++ p.1 := List.take_subset 3 _ hc
          rcases List.mem_append.mp hc2 with hc3 | hc3
          · simp only [List.mem_singleton] at hc3
            exact hc3 ▸ pinnedCandidate_shape surname
          · obtain ⟨sel, hsel, hmk⟩ := hmem c hc3
            exact hmk ▸ makeCandidate_shape surname sel hsel
    · rw [if_neg hcond] at h
      cases h2 : genLoop (groupByTag sylls) (options.tags.getD ["밝음", "지혜"]) surname g
          (3 - List.length ([] : List Candidate)) 1 with
      | none => rw [h2] at h; simp at h
      | some p =>
        rw [h2] at h
        simp only [Option.map_some', Option.some.injEq] at h
        obtain ⟨hlen, hmem⟩ :=
          genLoop_some (groupByTag sylls) (options.tags.getD ["밝음", "지혜"]) surname g
            (3 - List.length ([] : List Candidate)) 1 p.1 p.2 (by rw [h2])
        simp only [List.length_nil] at hlen
        rw [← h]
        constructor
        · simp [hlen]
        · intro c hc
          have hc2 : c ∈ ([] : List Candidate) ++ p.1 := List.take_subset 3 _ hc
          simp only [List.nil_append] at hc2
          obtain ⟨sel, hsel, hmk⟩ := hmem c hc2
          exact hmk ▸ makeCandidate_shape surname sel hsel

/-- Witness for C1: a concrete successful run with three shaped candidates. -/
theorem generate_names_shape_witness :
    demoRun.length = 3 ∧ ∀ c ∈ demoRun, c.given_name.length = 2 ∧ c.hanja.length = 3 ∧
      c.hanja.head? = some c.family_name.hanja :=
  generate_names_shape demoSurnames demoSylls "Ann" "" ⟨none, none⟩ (fun _ => 0) 0 demoRun
    (by rfl)

/-- Claim C2 (amended): the weighted selection of `get_korean_surname` returns
the first entry whose cumulative weight is ≥ the draw; when the draw exceeds
the cumulative sum of all (nonnegative) weights, it returns the FIRST entry of
the list as the fall-through — not the last entry the original claim names. -/
theorem weighted_select_spec (options : List SurnameEntry) (r : ℚ) :
    (∀ i, i < options.length → r ≤ cumW options (i + 1) →
      (∀ j, j < i → cumW options (j + 1) < r) →
      weightedSelect options r = options.get? i) ∧
    ((∀ s ∈ options, 0 ≤ effW s) → cumW options options.length < r →
      weightedSelect options r = options.get? 0) := by
  constructor
  · intro i hi hle hmin
    unfold weightedSelect
    exact walkCumulative_first (options.get? 0) r options 0 i hi (by simpa using hle)
      (fun j hj => by simpa using hmin j hj)
  · intro hw hlt
    unfold weightedSelect
    exact walkCumulative_fall (options.get? 0) r options 0 hw (by simpa using hlt)

/-- Witness for C2 at a concrete list: draw 3/2 lands on the second entry
(cumulative 1 < 3/2 ≤ 3); draw 9 exceeds the total 3 and falls through to
the first entry. -/
theorem weighted_select_spec_witness :
    weightedSelect wsDemo (3 / 2) = wsDemo.get? 1 ∧ weightedSelect wsDemo 9 = wsDemo.get? 0 := by
  constructor
  · apply (weighted_select_spec wsDemo (3 / 2)).1 1 (by decide)
    · norm_num [cumW, wsDemo, effW]
    · intro j hj
      interval_cases j
      norm_num [cumW, wsDemo, effW]
  · apply (weighted_select_spec wsDemo 9).2
    · intro s hs
      fin_cases hs <;> norm_num [effW]
    · norm_num [cumW, wsDemo, effW]

/-- Claim C2 counterexample: two entries of default weight 1 each; the draw 3
exceeds the total weight 2, and the code returns the FIRST entry, not the
last entry the claim requires. -/
theorem weighted_fallback_counterexample :
    weightedSelect [ceKim, ceLee] 3 = some ceKim ∧
    [ceKim, ceLee].getLast? = some ceLee ∧ ceKim ≠ ceLee := by
  refine ⟨?_, rfl, by decide⟩
  norm_num [weightedSelect, walkCumulative, effW, ceKim, ceLee]

/-- Claim C3 (amended): with an empty `last_name` the surname is drawn by the
uniform `random.choice` over the `DEFAULT` list (or over the built-in
one-entry fallback if the `DEFAULT` key is absent): the result is the entry
at index `i % length`, so every entry is equally likely and the `weight`
fields play no role. -/
theorem default_branch_uniform (tbl : SurnameTable) (i : Nat) (r : ℚ) :
    get_korean_surname tbl "" i r
      = (dictGetD tbl "DEFAULT" defaultSurnameList).get?
          (i % (dictGetD tbl "DEFAULT" defaultSurnameList).length) :=
  pyChoice_eq_get? (dictGetD tbl "DEFAULT" defaultSurnameList) i

/-- Claim C3 counterexample: a `DEFAULT` list with weights 3 and 1.  Over the
two equally likely draws the weight-3 entry is selected exactly once, i.e.
with frequency 1/2 - not with the weighted frequency 3/4 = weight/total the
claim requires (cross-multiplied: 4 * count ≠ 3 * 2). -/
theorem default_branch_not_weighted :
    ((List.range 2).countP
      (fun i => get_korean_surname uTbl "" i 0 == some ⟨"김", "金", some 3⟩)) * 4 ≠ 3 * 2 := by
  decide

/-- Claim C4: any non-empty `last_name` whose uppercase form is `"SMITH"`
deterministically resolves to the fixed entry `{korean: 송, hanja: 宋}`,
independent of both random draws. -/
theorem smith_override (tbl : SurnameTable) (last_name : String) (i : Nat) (r : ℚ)
    (hne : last_name ≠ "") (hup : pyUpper last_name = "SMITH") :
    get_korean_surname tbl last_name i r = some ⟨"송", "宋", none⟩ := by
  cases hd : last_name.data with
  | nil =>
    exact absurd (String.ext (hd.trans rfl)) hne
  | cons c rest =>
    simp only [get_korean_surname, hd]
    rw [if_pos hup]

/-- Witness for C4: `"Smith"` resolves to the fixed entry with any table. -/
theorem smith_override_witness :
    get_korean_surname [] "Smith" 0 0 = some ⟨"송", "宋", none⟩ :=
  smith_override [] "Smith" 0 0 (by decide) (by decide)

/-- Zeta-expanded form of `generate_korean_names`, for rewriting. -/
lemma generate_eq (surnames : SurnameTable) (sylls : List SyllableEntry)
    (first_name last_name : String) (options : Options) (g : Nat → Nat) (r : ℚ) :
    generate_korean_names surnames sylls first_name last_name options g r =
      (get_korean_surname surnames last_name (g 0) r).bind (fun surname =>
        (genLoop (groupByTag sylls) (options.tags.getD ["밝음", "지혜"]) surname g
          (3 - (if pyUpper first_name = "WILSON" ∧ pyUpper last_name = "SMITH" then
            [pinnedCandidate surname] else []).length) 1).map (fun p =>
          ((if pyUpper first_name = "WILSON" ∧ pyUpper last_name = "SMITH" then
            [pinnedCandidate surname] else []) ++ p.1).take 3)) := rfl

/-- Claim C5: for every draw sequence (over any surname table and any
non-empty syllable pool) the WILSON/SMITH call returns exactly 3 candidates
and its first candidate is the pinned one with `name_kr = "송월선"`. -/
theorem wilson_smith_pinned (surnames : SurnameTable) (sylls : List SyllableEntry)
    (g : Nat → Nat) (r : ℚ) (hs : sylls ≠ []) :
    ∃ cs, generate_korean_names surnames sylls "WILSON" "SMITH" ⟨none, none⟩ g r = some cs ∧
      cs.length = 3 ∧ ∃ c, cs.head? = some c ∧ c.name_kr = "송월선" := by
  have hbt := groupByTag_ne_nil hs
  have hv := groupByTag_vals sylls
  obtain ⟨more, kk, hloop⟩ :=
    genLoop_success hbt hv ["밝음", "지혜"] ⟨"송", "宋", none⟩ g 2 1
  obtain ⟨hlen, _⟩ :=
    genLoop_some (groupByTag sylls) ["밝음", "지혜"] ⟨"송", "宋", none⟩ g 2 1 more kk hloop
  refine ⟨pinnedCandidate ⟨"송", "宋", none⟩ :: more, ?_, by simp [hlen],
    pinnedCandidate ⟨"송", "宋", none⟩, rfl, rfl⟩
  rw [generate_eq]
  rw [show get_korean_surname surnames "SMITH" (g 0) r = some ⟨"송", "宋", none⟩ from rfl]
  simp only [Option.some_bind]
  rw [if_pos (⟨rfl, rfl⟩ : pyUpper "WILSON" = "WILSON" ∧ pyUpper "SMITH" = "SMITH")]
  rw [show ((⟨none, none⟩ : Options).tags.getD ["밝음", "지혜"]) = ["밝음", "지혜"] from rfl]
  rw [show (3 - [pinnedCandidate ⟨"송", "宋", none⟩].length : Nat) = 2 from rfl]
  rw [hloop]
  simp only [Option.map_some', Option.some.injEq]
  rw [List.singleton_append]
  exact List.take_of_length_le (by simp [hlen])

/-- Witness for C5: a concrete WILSON/SMITH run. -/
theorem wilson_smith_pinned_witness :
    ∃ cs, generate_korean_names demoSurnames demoSylls "WILSON" "SMITH" ⟨none, none⟩
        (fun _ => 0) 0 = some cs ∧ cs.length = 3 ∧
      ∃ c, cs.head? = some c ∧ c.name_kr = "송월선" :=
  wilson_smith_pinned demoSurnames demoSylls (fun _ => 0) 0 (by decide)

/-- Claim C6: for every non-empty syllable pool and every supplied tag list
(tags absent from the pool or fewer than 2 tags included), the
syllable-selection step of the candidate loop succeeds and collects exactly
2 syllable entries, filling up via uniformly random tags of the whole pool. -/
theorem syllable_selection_two (sylls : List SyllableEntry) (tags : List String)
    (g : Nat → Nat) (k : Nat) (hs : sylls ≠ []) :
    ∃ sel kk, syllableSelection (groupByTag sylls) tags g k = some (sel, kk) ∧
      sel.length = 2 :=
  syllableSelection_success (groupByTag_ne_nil hs) (groupByTag_vals sylls) tags g k

/-- Witness for C6: one pool entry, a tag list naming only an absent tag. -/
theorem syllable_selection_two_witness :
    ∃ sel kk, syllableSelection (groupByTag demoSylls) ["없는태그"] (fun _ => 0) 0
        = some (sel, kk) ∧ sel.length = 2 :=
  syllable_selection_two demoSylls ["없는태그"] (fun _ => 0) 0 (by decide)

/-- Claim C7: `romanize_korean_name` and `get_surname_meaning` are pure
functions of their arguments (two identical calls are identical), the
romanizer passes any character absent from its tables through unchanged, and
the result has the shape surname-romanization, a space, then the hyphen-join
of the per-character romanizations. -/
theorem pure_components (s gn h : String) :
    romanize_korean_name s gn = romanize_korean_name s gn ∧
    get_surname_meaning h = get_surname_meaning h ∧
    (dictGet romanization_map s = none →
      (∀ c ∈ gn.data, dictGet given_romanization c = none) →
      romanize_korean_name s gn
        = s ++ " " ++ String.intercalate "-" (gn.data.map (fun c => String.mk [c]))) := by
  refine ⟨rfl, rfl, fun hs hg => ?_⟩
  simp only [romanize_korean_name, hs, Option.getD_none]
  have : gn.data.map (fun c => (dictGet given_romanization c).getD (String.mk [c]))
      = gn.data.map (fun c => String.mk [c]) := by
    apply List.map_congr_left
    intro c hc
    rw [hg c hc]
    rfl
  rw [this]

/-- Witness for C7: characters and a surname outside every table pass
through unchanged into the hyphenated format. -/
theorem pure_components_witness :
    romanize_korean_name "zz" "xy" = "zz x-y" :=
  ((pure_components "zz" "xy" "唐").2.2 (by decide) (by decide)).trans (by decide)

/-- Claim C8: whenever the supplied tag list is empty or matches no key of a
well-formed fortune table, `generate_fortune` still succeeds: it falls back
to the full key set, echoes the caller-supplied date, and draws
`deeper_look` from some tag's message list. -/
theorem fortune_fallback (ftbl : FortuneTable) (tags : List String) (date : String)
    (g : Nat → Nat) (hwf : FortuneTableWF ftbl)
    (habsent : tags.filter (fun t => (dictGet ftbl t).isSome) = []) :
    ∃ f, generate_fortune ftbl tags date g = some f ∧ f.date = date ∧
      ∃ t msgs, (t, msgs) ∈ ftbl ∧ f.deeper_look ∈ msgs := by
  obtain ⟨hne, hvals⟩ := hwf
  have hkeys : ftbl.map Prod.fst ≠ [] := by simpa using hne
  obtain ⟨t, h1, ht⟩ := pyChoice_isSome hkeys (g 0)
  obtain ⟨msgs, h2⟩ := dictGet_of_mem_keys ht
  have hmem : (t, msgs) ∈ ftbl := dictGet_mem h2
  have hmsgs : msgs ≠ [] := hvals (t, msgs) hmem
  obtain ⟨m, h3, hm⟩ := pyChoice_isSome hmsgs (g 1)
  obtain ⟨cc, h4, _⟩ := pyChoice_isSome (show cosmic_cookies ≠ [] by decide) (g 2)
  obtain ⟨ls, h5, _⟩ := pyChoice_isSome (show lucky_snacks ≠ [] by decide) (g 3)
  refine ⟨⟨date, cc, ls, m⟩, ?_, rfl, t, msgs, hmem, hm⟩
  unfold generate_fortune
  rw [habsent]
  simp only [List.isEmpty_nil, if_true]
  rw [h1]
  simp only [Option.some_bind]
  rw [h2]
  simp only [Option.some_bind]
  rw [h3]
  simp only [Option.some_bind]
  rw [h4]
  simp only [Option.some_bind]
  rw [h5]
  simp only [Option.map_some']

/-- Witness for C8: a one-tag table and a tag list matching nothing. -/
theorem fortune_fallback_witness :
    ∃ f, generate_fortune demoFortunes ["zzz"] "2024/01/01" (fun _ => 0) = some f ∧
      f.date = "2024/01/01" ∧ ∃ t msgs, (t, msgs) ∈ demoFortunes ∧ f.deeper_look ∈ msgs :=
  fortune_fallback demoFortunes ["zzz"] "2024/01/01" (fun _ => 0) (by decide) (by decide)

/-- Claim C9 evaluation: with an empty surname table, resolving any non-empty
non-SMITH last name fails (the code iterates `None`, a `TypeError`), and with
an empty fortune table `generate_fortune` fails (`random.choice([])`, an
`IndexError`) - exceptions do escape these functions on empty tables, contrary
to the claim's no-exception guarantee. -/
theorem empty_tables_crash :
    get_korean_surname [] "JONES" 0 0 = none ∧
    generate_fortune [] ["밝음"] "2024/01/01" (fun _ => 0) = none :=
  ⟨rfl, rfl⟩

/-- Claim C10: the `gender` option is read but never used: two calls differing
only in `options.gender` and consuming the same draw sequence return
identical candidate lists. -/
theorem gender_no_influence (surnames : SurnameTable) (sylls : List SyllableEntry)
    (first_name last_name : String) (tags : Option (List String))
    (g1 g2 : Option String) (g : Nat → Nat) (r : ℚ) :
    generate_korean_names surnames sylls first_name last_name ⟨tags, g1⟩ g r =
    generate_korean_names surnames sylls first_name last_name ⟨tags, g2⟩ g r := rfl
